import Mathlib

/-!
Shallow embedding of the CardIQ retrieval subsystem
(`src/utils/pdf_processor.py` and `src/rag/rag_system.py`).

Strings are modelled as `List Char`; the Python `str` helpers used by the
code (`strip`, `split`, `lower`, `replace`, negative-index slicing, `in`)
are translated one-to-one.  Floating point distances are modelled over `ℚ`.
The sentence-transformer encoder is an arbitrary order-preserving function
`embed : Str → Vec` (the library encodes a batch of texts one vector per
text, in input order); the FAISS `IndexFlatL2` is a list of vectors searched
by exact squared L2 distance, nearest first with ties broken by insertion
position, and, as documented by FAISS, when fewer than the requested number
of vectors are stored the result arrays are padded with label `-1` and a
large sentinel distance.
-/

namespace CardIQ

abbrev Str := List Char

/-- Python `str.lstrip()` over the modelled whitespace set. -/
def lstrip (s : Str) : Str := s.dropWhile fun c => c.isWhitespace

/-- Python `str.rstrip()`. -/
def rstrip (s : Str) : Str := (s.reverse.dropWhile fun c => c.isWhitespace).reverse

/-- Python `str.strip()`. -/
def pyStrip (s : Str) : Str := rstrip (lstrip s)

/-- Python `text.replace('\n', ' ')`. -/
def replaceNL (s : Str) : Str := s.map fun c => if c = '\n' then ' ' else c

/-- Python `text.split('. ')`: left-to-right scan on the two-character
separator, `''.split('. ') = ['']`. -/
def splitDS : Str → List Str
  | [] => [[]]
  | [c] => [[c]]
  | c :: d :: rest =>
    if c = '.' ∧ d = ' ' then [] :: splitDS rest
    else
      match splitDS (d :: rest) with
      | [] => [[c]]
      | h :: t => (c :: h) :: t

/-- Python slice `s[-n:]` for a nonnegative `n`; note that `s[-0:]` is the
whole string, since `-0 == 0` in Python. -/
def pySliceLast (n : Nat) (s : Str) : Str :=
  if n = 0 then s else s.drop (s.length - n)

/-- The last `n` characters of `s` (the spec's "last `n` characters"). -/
def lastChars (n : Nat) (s : Str) : Str := s.drop (s.length - n)

/-- A chunk dictionary produced by `PDFProcessor.chunk_text`. -/
structure Chunk where
  chunk_id : Nat
  text : Str
  length : Nat
  deriving DecidableEq

/-- The chunk dict emitted by `chunk_text`:
`{'chunk_id': cid, 'text': buf.strip(), 'length': len(buf)}`. -/
def mkChunk (cid : Nat) (buf : Str) : Chunk :=
  ⟨cid, pyStrip buf, buf.length⟩

/-- The accumulation loop of `PDFProcessor.chunk_text` over the sentence
list, carrying `chunks`, `current_chunk` and `chunk_id`.  Each sentence is
re-terminated (`sentence.strip() + '. '`); when appending it would push the
buffer past `chunk_size` and the buffer is nonempty, the buffer is emitted
and the new buffer is seeded with `current_chunk[-overlap:]`. -/
def chunkLoop (chunkSize overlap : Nat) :
    List Str → List Chunk → Str → Nat → List Chunk
  | [], chunks, current, cid =>
    if current = [] then chunks else chunks ++ [mkChunk cid current]
  | s :: rest, chunks, current, cid =>
    let sentence := pyStrip s ++ ['.', ' ']
    if current.length + sentence.length > chunkSize ∧ current ≠ [] then
      chunkLoop chunkSize overlap rest (chunks ++ [mkChunk cid current])
        (pySliceLast overlap current ++ sentence) (cid + 1)
    else
      chunkLoop chunkSize overlap rest chunks (current ++ sentence) cid

/-- `PDFProcessor.chunk_text(text, chunk_size, overlap)`. -/
def chunk_text (text : Str) (chunkSize overlap : Nat) : List Chunk :=
  chunkLoop chunkSize overlap (splitDS (replaceNL text)) [] [] 0

/-- Concatenation of the re-terminated sentences of a piece list (every
unit stripped, with `'. '` re-appended), as the loop accumulates them. -/
def joinPieces (ps : List Str) : Str :=
  (ps.map fun s => pyStrip s ++ ['.', ' ']).flatten

/-- The normalized form of an input text: newlines to spaces, split on
`'. '`, each unit stripped and re-terminated with `'. '`, concatenated. -/
def normJoin (text : Str) : Str := joinPieces (splitDS (replaceNL text))

/-- A buffer that ends with the two characters `'. '` (every nonempty
buffer built by `chunk_text` has this shape, since each appended sentence
ends with `'. '`). -/
def goodBuf (b : Str) : Prop := ∃ p, b = p ++ ['.', ' ']

/-- The overlap relation that actually links consecutive emitted chunks:
the successor's text begins with the left-trimmed form of (the last
`overlap - 1` characters of the predecessor's text followed by one
space).  The trailing space appears because the overlap slice is taken
from the pre-trim buffer, which ends with `'. '`. -/
def overlapRel (ov : Nat) (a b : Chunk) : Prop :=
  lstrip (lastChars (ov - 1) a.text ++ [' ']) <+: b.text

abbrev Vec := List ℚ

/-- Squared L2 distance, the `IndexFlatL2` metric. -/
def l2sq (u v : Vec) : ℚ := ((u.zip v).map fun p => (p.1 - p.2) * (p.1 - p.2)).sum

/-- FLT_MAX, the sentinel distance FAISS reports for padded result slots. -/
def faissPad : ℚ := 340282346638528859811704183484516925440

/-- The (insertion position, distance-to-query) table of a flat index. -/
def distPairs (vecs : List Vec) (q : Vec) : List (Nat × ℚ) :=
  (List.range vecs.length).map fun i => (i, l2sq q (vecs.getD i []))

/-- Ordered insertion under the total order (distance ascending, insertion
position ascending on ties); distinct positions make this order linear, so
sorting by it yields the unique FAISS result ordering. -/
def insertPair (a : Nat × ℚ) : List (Nat × ℚ) → List (Nat × ℚ)
  | [] => [a]
  | b :: t =>
    if a.2 < b.2 ∨ (a.2 = b.2 ∧ a.1 ≤ b.1) then a :: b :: t
    else b :: insertPair a t

/-- Sort the distance table, nearest first, ties by insertion position. -/
def sortPairs : List (Nat × ℚ) → List (Nat × ℚ)
  | [] => []
  | a :: t => insertPair a (sortPairs t)

/-- `faiss.IndexFlatL2.search`: the `n` nearest stored vectors by squared L2
distance, nearest first, ties broken by insertion position; when fewer than
`n` vectors are stored, the tail is padded with label `-1`. -/
def faissSearch (vecs : List Vec) (q : Vec) (n : Nat) : List (Int × ℚ) :=
  let top := ((sortPairs (distPairs vecs q)).take n).map fun p => ((p.1 : Int), p.2)
  top ++ List.replicate (n - top.length) (-1, faissPad)

/-- The chunk metadata `RAGSystem` stores per chunk (the fields `search`
reads: the chunk text and its `card_name` tag). -/
structure CMeta where
  text : Str
  card_name : Str
  deriving DecidableEq

/-- One processed card passed to `create_embeddings` (its `'chunks'` list). -/
structure Card where
  chunks : List CMeta
  deriving DecidableEq

/-- The mutable state of a `RAGSystem`: `self.index` and `self.chunks`. -/
structure RAGState where
  index : Option (List Vec)
  chunks : List CMeta
  deriving DecidableEq

/-- `RAGSystem.create_embeddings(processed_cards)`: flatten every card's
chunk list into `self.chunks` (insertion order), collect the texts in the
same order, encode them (one vector per text, order preserving) and build a
fresh flat index from the vectors. -/
def create_embeddings (embed : Str → Vec) (cards : List Card)
    (_st : RAGState) : RAGState :=
  let chunks := (cards.map Card.chunks).flatten
  { index := some ((chunks.map CMeta.text).map embed), chunks := chunks }

/-- Python list indexing `l[i]` with an `int` index: a negative index counts
from the end; an out-of-range index raises `IndexError` (here `none`). -/
def pyGet {α : Type} (l : List α) (i : Int) : Option α :=
  if 0 ≤ i then l[i.toNat]?
  else if 0 ≤ i + l.length then l[(i + l.length).toNat]? else none

/-- Python `str.lower()` (ASCII case folding). -/
def pyLower (s : Str) : Str := s.map Char.toLower

/-- Python substring test `needle in hay`: some suffix of `hay` starts with
`needle`. -/
def pyIn (needle : Str) : Str → Bool
  | [] => needle.isPrefixOf []
  | c :: rest => needle.isPrefixOf (c :: rest) || pyIn needle rest

/-- A result dict returned by `RAGSystem.search`: the copied chunk together
with its `'score'` (raw distance) and `'relevance'` fields. -/
structure SearchResult where
  chunk : CMeta
  score : ℚ
  relevance : ℚ
  deriving DecidableEq

instance {ε α : Type} [DecidableEq ε] [DecidableEq α] : DecidableEq (Except ε α) :=
  fun a b =>
    match a, b with
    | .ok x, .ok y =>
      if h : x = y then isTrue (by rw [h]) else
        isFalse fun hc => h (Except.ok.inj hc)
    | .error x, .error y =>
      if h : x = y then isTrue (by rw [h]) else
        isFalse fun hc => h (Except.error.inj hc)
    | .ok _, .error _ => isFalse fun hc => Except.noConfusion hc
    | .error _, .ok _ => isFalse fun hc => Except.noConfusion hc

/-- The card-filter test of `RAGSystem.search`:
`card_filter is None or card_filter.lower() in chunk['card_name'].lower()`. -/
def passesFilter (cf : Option Str) (name : Str) : Bool :=
  match cf with
  | none => true
  | some f => pyIn (pyLower f) (pyLower name)

/-- One body step of the collection loop: score the looked-up chunk
(`relevance = 1.0 / (1.0 + distance)`) and append it when it passes the
card filter. -/
def stepResults (cf : Option Str) (results : List SearchResult) (ch : CMeta)
    (dist : ℚ) : List SearchResult :=
  if passesFilter cf ch.card_name then
    results ++ [⟨ch, dist, 1 / (1 + dist)⟩] else results

/-- The result-collection loop of `RAGSystem.search` over the candidate
`(index, distance)` pairs: a candidate whose label passes the
`idx < len(self.chunks)` guard is looked up with Python indexing, scored,
filtered, and the loop breaks once `k` results are collected. -/
def searchLoop (chunks : List CMeta) (k : Nat) (cf : Option Str) :
    List (Int × ℚ) → List SearchResult → Except String (List SearchResult)
  | [], results => .ok results
  | (idx, dist) :: rest, results =>
    if idx < (chunks.length : Int) then
      match pyGet chunks idx with
      | none => .error "IndexError"
      | some ch =>
        if k ≤ (stepResults cf results ch dist).length then
          .ok (stepResults cf results ch dist)
        else searchLoop chunks k cf rest (stepResults cf results ch dist)
    else searchLoop chunks k cf rest results

/-- The number of candidates fetched from the index:
`k if not card_filter else k * 3` — Python treats both `None` and the
empty string as a falsy filter. -/
def fetchCount (k : Nat) (cf : Option Str) : Nat :=
  match cf with
  | none => k
  | some f => if f = [] then k else k * 3

/-- `RAGSystem.search(query, k, card_filter)`: empty result on a missing
index; otherwise embed the query, fetch `fetchCount` candidates and run
the collection loop. -/
def search (embed : Str → Vec) (st : RAGState) (query : Str) (k : Nat)
    (cf : Option Str) : Except String (List SearchResult) :=
  match st.index with
  | none => .ok []
  | some vecs =>
    searchLoop st.chunks k cf (faissSearch vecs (embed query) (fetchCount k cf)) []

/-- The pair of persisted artifacts `load_index` looks for on disk
(`faiss_index.bin` and `chunks_metadata.pkl`); `none` models a missing
file. -/
structure FileSystem where
  index_file : Option (List Vec)
  chunks_file : Option (List CMeta)
  deriving DecidableEq

/-- `RAGSystem.load_index()`: if either artifact is missing, report `False`
and return before touching `self.index` or `self.chunks`; otherwise load
both and report `True`. -/
def load_index (fs : FileSystem) (st : RAGState) : Bool × RAGState :=
  match fs.index_file, fs.chunks_file with
  | some vecs, some chs => (true, { index := some vecs, chunks := chs })
  | _, _ => (false, st)

/-- A concrete encoder used for evaluation: one-dimensional, deterministic
and order-preserving (the text's character count). -/
def exEmbed : Str → Vec := fun s => [(s.length : ℚ)]

/-- Concrete chunk metadata for evaluation: a chunk of card `cardA`. -/
def mA : CMeta := ⟨("t0").toList, ("cardA").toList⟩

/-- Concrete chunk metadata for evaluation: a chunk of card `cardB`. -/
def mB : CMeta := ⟨("t1").toList, ("cardB").toList⟩

/-- A concrete state holding two aligned vectors and chunks, as after a
build from two one-chunk cards. -/
def stTwo : RAGState := ⟨some [[0], [1]], [mA, mB]⟩

/-- Python `split` never returns an empty list. -/
theorem splitDS_ne_nil (s : Str) : splitDS s ≠ [] := by
  match s with
  | [] => simp [splitDS]
  | [c] => simp [splitDS]
  | c :: d :: rest =>
    rw [splitDS]
    split
    · simp
    · split <;> simp

/-- Dropping a while-run never lengthens a list. -/
theorem length_dropWhile_le_self {α : Type} (p : α → Bool) (l : List α) :
    (l.dropWhile p).length ≤ l.length := by
  induction l with
  | nil => simp
  | cons a t ih =>
    rw [List.dropWhile_cons]
    split
    · exact Nat.le_succ_of_le ih
    · simp

/-- Stripping never lengthens a string. -/
theorem pyStrip_length_le (s : Str) : (pyStrip s).length ≤ s.length := by
  unfold pyStrip rstrip lstrip
  calc ((((s.dropWhile fun c => c.isWhitespace).reverse.dropWhile
          fun c => c.isWhitespace)).reverse).length
      = (((s.dropWhile fun c => c.isWhitespace).reverse.dropWhile
          fun c => c.isWhitespace)).length := by rw [List.length_reverse]
    _ ≤ ((s.dropWhile fun c => c.isWhitespace).reverse).length :=
        length_dropWhile_le_self _ _
    _ = ((s.dropWhile fun c => c.isWhitespace)).length := by rw [List.length_reverse]
    _ ≤ s.length := length_dropWhile_le_self _ _

/-- Every chunk the loop ever emits is `mkChunk` of some buffer. -/
theorem chunkLoop_mem_shape (cs ov : Nat) (pieces : List Str) :
    ∀ chunks current cid c, c ∈ chunkLoop cs ov pieces chunks current cid →
      c ∈ chunks ∨ ∃ i b, c = mkChunk i b := by
  induction pieces with
  | nil =>
    intro chunks current cid c hc
    rw [chunkLoop] at hc
    split at hc
    · exact Or.inl hc
    · rcases List.mem_append.1 hc with h | h
      · exact Or.inl h
      · exact Or.inr ⟨cid, current, by simpa using h⟩
  | cons p rest ih =>
    intro chunks current cid c hc
    rw [chunkLoop] at hc
    split at hc
    · rcases ih _ _ _ _ hc with h | h
      · rcases List.mem_append.1 h with h1 | h1
        · exact Or.inl h1
        · exact Or.inr ⟨cid, current, by simpa using h1⟩
      · exact Or.inr h
    · exact ih _ _ _ _ hc

/-- The loop result is nonempty as soon as anything is pending. -/
theorem chunkLoop_ne_nil (cs ov : Nat) (pieces : List Str) :
    ∀ chunks current cid, pieces ≠ [] ∨ chunks ≠ [] ∨ current ≠ [] →
      chunkLoop cs ov pieces chunks current cid ≠ [] := by
  induction pieces with
  | nil =>
    intro chunks current cid h
    rw [chunkLoop]
    split
    · rename_i hcur
      rcases h with h | h | h
      · exact absurd rfl h
      · exact h
      · exact absurd hcur h
    · simp
  | cons p rest ih =>
    intro chunks current cid _
    rw [chunkLoop]
    split
    · exact ih _ _ _ (Or.inr (Or.inl (by simp)))
    · exact ih _ _ _ (Or.inr (Or.inr (by simp)))

/-- The full chunker always returns at least one chunk. -/
theorem chunk_text_ne_nil (text : Str) (cs ov : Nat) :
    chunk_text text cs ov ≠ [] := by
  unfold chunk_text
  exact chunkLoop_ne_nil cs ov _ [] [] 0 (Or.inl (splitDS_ne_nil _))

/-- When the whole normalized input fits in `chunk_size`, the loop never
emits early and returns one chunk holding everything. -/
theorem chunkLoop_small (cs ov : Nat) (pieces : List Str) :
    ∀ current, current ≠ [] ∨ pieces ≠ [] →
      current.length + (joinPieces pieces).length ≤ cs →
      chunkLoop cs ov pieces [] current 0 =
        [mkChunk 0 (current ++ joinPieces pieces)] := by
  induction pieces with
  | nil =>
    intro current hne _
    rw [chunkLoop]
    have hc : current ≠ [] := by
      rcases hne with h | h
      · exact h
      · exact absurd rfl h
    simp [hc, joinPieces]
  | cons p rest ih =>
    intro current hne hlen
    have hj : joinPieces (p :: rest) =
        (pyStrip p ++ ['.', ' ']) ++ joinPieces rest := by
      simp [joinPieces]
    rw [hj, List.length_append, List.length_append] at hlen
    rw [chunkLoop]
    have hcond : ¬ (current.length + (pyStrip p ++ ['.', ' ']).length > cs ∧
        current ≠ []) := by
      intro hcon
      have h1 := hcon.1
      rw [List.length_append] at h1
      omega
    rw [if_neg hcond]
    rw [ih (current ++ (pyStrip p ++ ['.', ' '])) (Or.inl (by simp))
      (by rw [List.length_append, List.length_append]; omega)]
    rw [hj, List.append_assoc]

/-- Claim C5 (counterexample): calling `chunk_text` with
`overlap = 10 >= chunk_size = 6` does not fail: it returns an ordinary
chunk list, indistinguishable in kind from any valid call's output, so no
configuration error is ever raised. -/
theorem c5_counterexample :
    chunk_text ("aaaa. bbbb").toList 6 10 =
      [⟨0, ("aaaa.").toList, 6⟩, ⟨1, ("aaaa. bbbb.").toList, 12⟩] := by decide

/-- Claim C5 (amended): `chunk_text` performs no validation of
`overlap >= chunk_size`; such a call proceeds normally and returns a
nonempty chunk list exactly like a valid configuration does. -/
theorem c5_no_validation (text : Str) (cs ov : Nat) (_h : cs ≤ ov) :
    chunk_text text cs ov ≠ [] :=
  chunk_text_ne_nil text cs ov

/-- Witness for C5 at a concrete overflowing configuration. -/
theorem c5_no_validation_witness :
    6 ≤ 10 ∧ chunk_text ("aaaa. bbbb").toList 6 10 ≠ [] :=
  ⟨by decide, c5_no_validation (("aaaa. bbbb").toList) 6 10 (by decide)⟩

/-- Claim C6 (counterexample): for the input `"hello"` (shorter than
`chunk_size = 500`), the single returned chunk's text is `"hello."` with a
period appended by the sentence re-termination, not the trimmed input
`"hello"`. -/
theorem c6_counterexample :
    ¬ ((chunk_text ("hello").toList 500 100).length = 1 ∧
      ∀ c ∈ chunk_text ("hello").toList 500 100,
        c.text = pyStrip (replaceNL (("hello").toList))) := by
  intro h
  exact absurd (h.2 ⟨0, ("hello.").toList, 7⟩ (by decide)) (by decide)

/-- Claim C6 (amended): for every text whose normalized form (newlines to
spaces, split on `'. '`, each unit stripped and re-terminated with `'. '`,
concatenated) fits within `chunk_size`, `chunk_text` returns exactly one
chunk, whose text is the trimmed normalized form and whose recorded length
is the normalized form's length. -/
theorem c6_single_chunk (text : Str) (cs ov : Nat)
    (h : (normJoin text).length ≤ cs) :
    chunk_text text cs ov =
      [⟨0, pyStrip (normJoin text), (normJoin text).length⟩] := by
  unfold chunk_text
  rw [chunkLoop_small cs ov _ [] (Or.inr (splitDS_ne_nil _))
    (by simpa [normJoin] using h)]
  simp [mkChunk, normJoin]

/-- Witness for C6 at a concrete short input. -/
theorem c6_single_chunk_witness :
    (normJoin (("hi").toList)).length ≤ 500 ∧
    chunk_text ("hi").toList 500 100 =
      [⟨0, pyStrip (normJoin (("hi").toList)), (normJoin (("hi").toList)).length⟩] :=
  ⟨by decide, c6_single_chunk (("hi").toList) 500 100 (by decide)⟩

/-- Claim C9 (counterexample): the chunk built from `"hello"` records
`length = 7` (the pre-trim buffer `"hello. "`), but its trimmed text
`"hello."` has 6 characters. -/
theorem c9_counterexample :
    ¬ (∀ c ∈ chunk_text ("hello").toList 500 100, c.length = c.text.length) := by
  intro h
  exact absurd (h ⟨0, ("hello.").toList, 7⟩ (by decide)) (by decide)

/-- Claim C9 (amended): every emitted chunk's `length` field is the
character count of its pre-trim buffer, of which the `text` field is the
trimmed form; hence `len(text) <= length`, with equality only when
trimming removes nothing. -/
theorem c9_length_pretrim (text : Str) (cs ov : Nat) (c : Chunk)
    (hc : c ∈ chunk_text text cs ov) :
    c.text.length ≤ c.length ∧
      ∃ b : Str, c.text = pyStrip b ∧ c.length = b.length := by
  rcases chunkLoop_mem_shape cs ov _ [] [] 0 c hc with h | ⟨i, b, rfl⟩
  · simp at h
  · exact ⟨pyStrip_length_le b, b, rfl, rfl⟩

/-- Witness for C9 at the concrete chunk built from `"hello"`. -/
theorem c9_length_pretrim_witness :
    (⟨0, ("hello.").toList, 7⟩ : Chunk) ∈ chunk_text ("hello").toList 500 100 ∧
    ((⟨0, ("hello.").toList, 7⟩ : Chunk).text.length ≤ 7 ∧
      ∃ b : Str, (⟨0, ("hello.").toList, 7⟩ : Chunk).text = pyStrip b ∧
        7 = b.length) :=
  ⟨by decide, c9_length_pretrim (("hello").toList) 500 100 _ (by decide)⟩

/-- Left-stripping distributes over an append whose head part keeps some
non-whitespace content. -/
theorem lstrip_append_of_ne (x y : Str) (h : lstrip x ≠ []) :
    lstrip (x ++ y) = lstrip x ++ y := by
  unfold lstrip at *
  rw [List.dropWhile_append, if_neg (fun hc => h (List.isEmpty_iff.mp hc))]

/-- Left-stripping an append drops an all-whitespace head part entirely. -/
theorem lstrip_append_of_ws (x y : Str) (h : ∀ c ∈ x, c.isWhitespace = true) :
    lstrip (x ++ y) = lstrip y := by
  unfold lstrip
  rw [List.dropWhile_append,
    if_pos (List.isEmpty_iff.mpr (List.dropWhile_eq_nil_iff.mpr h))]

/-- Right-stripping a buffer ending in `'. '` removes exactly the space. -/
theorem rstrip_concat (p : Str) : rstrip (p ++ ['.', ' ']) = p ++ ['.'] := by
  unfold rstrip
  have h1 : (p ++ ['.', ' ']).reverse = ' ' :: '.' :: p.reverse := by simp
  rw [h1, List.dropWhile_cons, if_pos (by decide), List.dropWhile_cons,
    if_neg (by decide)]
  simp

/-- The left-strip of a good buffer is a nonempty good buffer. -/
theorem lstrip_good (b : Str) (hb : goodBuf b) :
    goodBuf (lstrip b) ∧ lstrip b ≠ [] := by
  obtain ⟨p, rfl⟩ := hb
  by_cases h : lstrip p = []
  · have hws : ∀ c ∈ p, c.isWhitespace = true :=
      List.dropWhile_eq_nil_iff.mp h
    rw [lstrip_append_of_ws p _ hws]
    exact ⟨⟨[], by decide⟩, by decide⟩
  · rw [lstrip_append_of_ne p _ h]
    exact ⟨⟨lstrip p, rfl⟩, by simp⟩

/-- A good buffer left-strips to its trimmed text plus one final space. -/
theorem strip_decomp (b : Str) (hb : goodBuf b) :
    lstrip b = pyStrip b ++ [' '] := by
  obtain ⟨⟨q, hq⟩, _⟩ := lstrip_good b hb
  unfold pyStrip
  rw [hq, rstrip_concat q, List.append_assoc]
  rfl

/-- A good buffer splits as leading whitespace, trimmed text, one space. -/
theorem buf_decomp (b : Str) (hb : goodBuf b) :
    b = (b.takeWhile fun c => c.isWhitespace) ++ (pyStrip b ++ [' ']) := by
  rw [← strip_decomp b hb]
  exact (List.takeWhile_append_dropWhile _ b).symm

/-- Left-strip is idempotent. -/
theorem lstrip_idem (s : Str) : lstrip (lstrip s) = lstrip s :=
  List.dropWhile_idempotent _ _

/-- Right-stripping keeps an initial segment of the string. -/
theorem rstrip_pref_self (x : Str) : rstrip x <+: x := by
  unfold rstrip
  have h : (x.reverse.dropWhile fun c => c.isWhitespace) <:+ x.reverse :=
    List.dropWhile_suffix _
  have h2 := List.reverse_prefix.mpr h
  rwa [List.reverse_reverse] at h2

/-- The trimmed text is an initial segment of the left-stripped buffer. -/
theorem pyStrip_pref_lstrip (b : Str) : pyStrip b <+: lstrip b :=
  rstrip_pref_self (lstrip b)

/-- Core slice identity over an explicit decomposition: left-stripping the
Python overlap slice of `W ++ T ++ [' ']` (whitespace `W`, stable `T`)
equals left-stripping the last `ov - 1` characters of `T` plus a space. -/
theorem lstrip_slice_core (W T : Str) (hws : ∀ c ∈ W, c.isWhitespace = true)
    (hT : lstrip (T ++ [' ']) = T ++ [' ']) (ov : Nat) (h1 : 1 ≤ ov) :
    lstrip (pySliceLast ov (W ++ (T ++ [' ']))) =
      lstrip (lastChars (ov - 1) T ++ [' ']) := by
  have hlen : (W ++ (T ++ [' '])).length = W.length + (T.length + 1) := by simp
  have hsl : pySliceLast ov (W ++ (T ++ [' '])) =
      (W ++ (T ++ [' '])).drop ((W ++ (T ++ [' '])).length - ov) := by
    unfold pySliceLast
    rw [if_neg (by omega)]
  by_cases hov : ov ≤ T.length + 1
  · have e1 : (W ++ (T ++ [' '])).length - ov =
        W.length + (T.length + 1 - ov) := by
      rw [hlen]
      omega
    have e2 : (T ++ [' ']).drop (T.length + 1 - ov) =
        T.drop (T.length + 1 - ov) ++ [' '] :=
      List.drop_append_of_le_length (by omega)
    have e3 : lastChars (ov - 1) T = T.drop (T.length + 1 - ov) := by
      unfold lastChars
      congr 1
      omega
    rw [hsl, e1, List.drop_append, e2, e3]
  · have e1 : (W ++ (T ++ [' '])).length - ov ≤ W.length := by
      rw [hlen]
      omega
    have e2 : (W ++ (T ++ [' '])).drop ((W ++ (T ++ [' '])).length - ov) =
        W.drop ((W ++ (T ++ [' '])).length - ov) ++ (T ++ [' ']) :=
      List.drop_append_of_le_length e1
    have hws2 : ∀ c ∈ W.drop ((W ++ (T ++ [' '])).length - ov),
        c.isWhitespace = true :=
      fun c hc => hws c (List.mem_of_mem_drop hc)
    have e4 : lastChars (ov - 1) T = T := by
      unfold lastChars
      rw [Nat.sub_eq_zero_of_le (by omega), List.drop_zero]
    rw [hsl, e2, lstrip_append_of_ws _ _ hws2, hT, e4, hT]

/-- Slice identity on a good buffer: for `ov >= 1` the left-stripped
overlap slice of the buffer is determined by the buffer's trimmed text. -/
theorem lstrip_slice (b : Str) (hb : goodBuf b) (ov : Nat) (h1 : 1 ≤ ov) :
    lstrip (pySliceLast ov b) =
      lstrip (lastChars (ov - 1) (pyStrip b) ++ [' ']) := by
  have hdec := buf_decomp b hb
  have hws : ∀ c ∈ (b.takeWhile fun c => c.isWhitespace),
      c.isWhitespace = true := fun c hc => List.mem_takeWhile_imp hc
  have hT : lstrip (pyStrip b ++ [' ']) = pyStrip b ++ [' '] := by
    rw [← strip_decomp b hb]
    exact lstrip_idem b
  calc lstrip (pySliceLast ov b)
      = lstrip (pySliceLast ov ((b.takeWhile fun c => c.isWhitespace) ++
          (pyStrip b ++ [' ']))) := by rw [← hdec]
    _ = lstrip (lastChars (ov - 1) (pyStrip b) ++ [' ']) :=
        lstrip_slice_core _ _ hws hT ov h1

/-- Appending another sentence to a good buffer preserves the trimmed text
as an initial segment. -/
theorem strip_append_pref (b s : Str) (hb : goodBuf b) :
    pyStrip b <+: pyStrip (b ++ (pyStrip s ++ ['.', ' '])) := by
  have hne := (lstrip_good b hb).2
  have h3 : pyStrip (b ++ (pyStrip s ++ ['.', ' '])) =
      lstrip b ++ (pyStrip s ++ ['.']) := by
    unfold pyStrip
    rw [lstrip_append_of_ne _ _ hne, ← List.append_assoc, rstrip_concat,
      List.append_assoc]
  rw [h3]
  exact (pyStrip_pref_lstrip b).trans (List.prefix_append _ _)

/-- Emission step: the trimmed text of the freshly seeded buffer (overlap
slice of the old good buffer plus the next sentence) begins with the
left-trimmed last `ov - 1` characters of the old trimmed text plus a
space. -/
theorem strip_emit_pref (b s : Str) (hb : goodBuf b) (ov : Nat) :
    lstrip (lastChars (ov - 1) (pyStrip b) ++ [' ']) <+:
      pyStrip (pySliceLast ov b ++ (pyStrip s ++ ['.', ' '])) := by
  by_cases h1 : 1 ≤ ov
  · rw [← lstrip_slice b hb ov h1]
    by_cases hX : lstrip (pySliceLast ov b) = []
    · rw [hX]
      exact List.nil_prefix
    · have h3 : pyStrip (pySliceLast ov b ++ (pyStrip s ++ ['.', ' '])) =
          lstrip (pySliceLast ov b) ++ (pyStrip s ++ ['.']) := by
        unfold pyStrip
        rw [lstrip_append_of_ne _ _ hX, ← List.append_assoc, rstrip_concat,
          List.append_assoc]
      rw [h3]
      exact List.prefix_append _ _
  · have hov : ov = 0 := by omega
    subst hov
    have h2 : lastChars 0 (pyStrip b) = [] :=
      List.drop_eq_nil_of_le (by omega)
    rw [h2]
    have h4 : lstrip ([] ++ [' ']) = [] := by decide
    rw [h4]
    exact List.nil_prefix

/-- Loop invariant for the overlap chain: buffers stay good, emitted
chunks stay chained, and the pending buffer's trimmed text extends the
link from the last emitted chunk. -/
theorem chunkLoop_chain (cs ov : Nat) (pieces : List Str) :
    ∀ chunks current cid,
      (current = [] → chunks = []) →
      (current ≠ [] → goodBuf current) →
      List.Chain' (overlapRel ov) chunks →
      (∀ c, chunks.getLast? = some c → current ≠ [] →
        lstrip (lastChars (ov - 1) c.text ++ [' ']) <+: pyStrip current) →
      List.Chain' (overlapRel ov) (chunkLoop cs ov pieces chunks current cid) := by
  induction pieces with
  | nil =>
    intro chunks current cid _ _ h3 h4
    rw [chunkLoop]
    split
    · exact h3
    · rename_i hcur
      rw [List.chain'_append]
      refine ⟨h3, List.chain'_singleton _, ?_⟩
      intro x hx y hy
      simp only [List.head?_cons, Option.mem_def, Option.some.injEq] at hy
      subst hy
      exact h4 x (Option.mem_def.mp hx) hcur
  | cons p rest ih =>
    intro chunks current cid h1 h2 h3 h4
    rw [chunkLoop]
    split
    · rename_i hcond
      apply ih
      · intro hnew
        exact absurd hnew (by simp)
      · intro _
        exact ⟨pySliceLast ov current ++ pyStrip p, by simp⟩
      · rw [List.chain'_append]
        refine ⟨h3, List.chain'_singleton _, ?_⟩
        intro x hx y hy
        simp only [List.head?_cons, Option.mem_def, Option.some.injEq] at hy
        subst hy
        exact h4 x (Option.mem_def.mp hx) hcond.2
      · intro c hc hne
        rw [List.getLast?_concat] at hc
        obtain rfl := Option.some.inj hc
        exact strip_emit_pref current p (h2 hcond.2) ov
    · apply ih
      · intro hnew
        exact absurd hnew (by simp)
      · intro _
        exact ⟨current ++ pyStrip p, by simp⟩
      · exact h3
      · intro c hc hne
        by_cases hcur : current = []
        · rw [h1 hcur] at hc
          simp at hc
        · exact (h4 c hc hcur).trans (strip_append_pref current p (h2 hcur))

/-- Claim C4 (counterexample): with `chunk_size = 10`, `overlap = 3` on
`"aaaa. bbbb. cccc"`, the second chunk's text is `"a. bbbb."`, which does
not begin with `"aa."`, the last 3 characters of its predecessor's text
`"aaaa."`: the overlap seed is sliced from the pre-trim buffer
`"aaaa. "`, not from the trimmed text. -/
theorem c4_counterexample :
    ¬ (∀ i, (hi : i + 1 < (chunk_text ("aaaa. bbbb. cccc").toList 10 3).length) →
      lastChars 3 (((chunk_text ("aaaa. bbbb. cccc").toList 10 3).get
          ⟨i, Nat.lt_of_succ_lt hi⟩).text) <+:
        ((chunk_text ("aaaa. bbbb. cccc").toList 10 3).get ⟨i + 1, hi⟩).text) := by
  intro h
  exact absurd (h 0 (by decide)) (by decide)

/-- Claim C4 (amended): for every input and configuration with
`overlap < chunk_size`, consecutive chunks are linked by `overlapRel`:
each chunk after the first begins with the left-trimmed form of (the last
`overlap - 1` characters of its predecessor's text followed by one space)
— the slice the code takes from the pre-trim buffer, which always ends in
`'. '`. -/
theorem c4_overlap_chain (text : Str) (cs ov : Nat) (_hov : ov < cs) :
    List.Chain' (overlapRel ov) (chunk_text text cs ov) := by
  unfold chunk_text
  apply chunkLoop_chain
  · intro _
    rfl
  · intro h
    exact absurd rfl h
  · exact List.chain'_nil
  · intro c hc
    simp at hc

/-- Witness for C4 at the concrete counterexample input. -/
theorem c4_overlap_chain_witness :
    3 < 10 ∧
    List.Chain' (overlapRel 3) (chunk_text ("aaaa. bbbb. cccc").toList 10 3) :=
  ⟨by decide, c4_overlap_chain (("aaaa. bbbb. cccc").toList) 10 3 (by decide)⟩

/-- Ordered insertion preserves membership. -/
theorem insertPair_mem (a x : Nat × ℚ) (l : List (Nat × ℚ)) :
    x ∈ insertPair a l ↔ x = a ∨ x ∈ l := by
  induction l with
  | nil => simp [insertPair]
  | cons b t ih =>
    rw [insertPair]
    split
    · simp [List.mem_cons]
    · simp only [List.mem_cons, ih]
      tauto

/-- Sorting preserves membership. -/
theorem sortPairs_mem (x : Nat × ℚ) (l : List (Nat × ℚ)) :
    x ∈ sortPairs l ↔ x ∈ l := by
  induction l with
  | nil => simp [sortPairs]
  | cons a t ih =>
    rw [sortPairs, insertPair_mem]
    simp [ih]

/-- Ordered insertion grows the length by one. -/
theorem insertPair_length (a : Nat × ℚ) (l : List (Nat × ℚ)) :
    (insertPair a l).length = l.length + 1 := by
  induction l with
  | nil => simp [insertPair]
  | cons b t ih =>
    rw [insertPair]
    split
    · simp
    · simp [ih]

/-- Sorting preserves the length. -/
theorem sortPairs_length (l : List (Nat × ℚ)) :
    (sortPairs l).length = l.length := by
  induction l with
  | nil => rfl
  | cons a t ih => rw [sortPairs, insertPair_length, ih, List.length_cons]

/-- The distance table has one row per stored vector. -/
theorem distPairs_length (vecs : List Vec) (q : Vec) :
    (distPairs vecs q).length = vecs.length := by
  simp [distPairs]

/-- Every distance-table row is a valid position with its exact distance. -/
theorem distPairs_mem (vecs : List Vec) (q : Vec) (i : Nat) (d : ℚ)
    (h : (i, d) ∈ distPairs vecs q) :
    i < vecs.length ∧ d = l2sq q (vecs.getD i []) := by
  unfold distPairs at h
  obtain ⟨j, hj, heq⟩ := List.mem_map.mp h
  injection heq with h1 h2
  subst h1
  subst h2
  exact ⟨List.mem_range.mp hj, rfl⟩

/-- Squared L2 distance is nonnegative. -/
theorem l2sq_nonneg (u v : Vec) : 0 ≤ l2sq u v := by
  unfold l2sq
  apply List.sum_nonneg
  intro x hx
  obtain ⟨p, _, rfl⟩ := List.mem_map.mp hx
  exact mul_self_nonneg _

/-- The FAISS padding sentinel is nonnegative. -/
theorem faissPad_nonneg : (0 : ℚ) ≤ faissPad := by
  norm_num [faissPad]

/-- Every candidate a FAISS search returns is either a stored position with
its exact distance, or the padding `(-1, sentinel)`. -/
theorem faissSearch_mem (vecs : List Vec) (q : Vec) (n : Nat) (idx : Int)
    (dist : ℚ) (h : (idx, dist) ∈ faissSearch vecs q n) :
    (∃ i : Nat, idx = (i : Int) ∧ i < vecs.length ∧
      dist = l2sq q (vecs.getD i [])) ∨ (idx = -1 ∧ dist = faissPad) := by
  unfold faissSearch at h
  rcases List.mem_append.mp h with h | h
  · obtain ⟨⟨i, d⟩, hmem, heq⟩ := List.mem_map.mp h
    injection heq with h1 h2
    have hmem2 := (sortPairs_mem _ _).mp (List.take_subset _ _ hmem)
    obtain ⟨hlt, hd⟩ := distPairs_mem vecs q i d hmem2
    exact Or.inl ⟨i, h1.symm, hlt, by rw [← h2, hd]⟩
  · obtain ⟨-, heq⟩ := List.mem_replicate.mp h
    injection heq with h1 h2
    exact Or.inr ⟨h1, h2⟩

/-- When at most the stored count is requested, FAISS pads nothing. -/
theorem faissSearch_no_pad (vecs : List Vec) (q : Vec) (n : Nat)
    (hn : n ≤ vecs.length) :
    faissSearch vecs q n =
      ((sortPairs (distPairs vecs q)).take n).map fun p => ((p.1 : Int), p.2) := by
  unfold faissSearch
  have hlen : (((sortPairs (distPairs vecs q)).take n).map
      fun p => ((p.1 : Int), p.2)).length = n := by
    rw [List.length_map, List.length_take, sortPairs_length, distPairs_length]
    omega
  simp only [hlen, Nat.sub_self, List.replicate_zero, List.append_nil]

/-- A passing chunk is appended to the accumulated results. -/
theorem stepResults_pos (cf : Option Str) (res : List SearchResult)
    (ch : CMeta) (dist : ℚ) (hf : passesFilter cf ch.card_name = true) :
    stepResults cf res ch dist = res ++ [⟨ch, dist, 1 / (1 + dist)⟩] := by
  rw [stepResults, if_pos hf]

/-- A failing chunk leaves the accumulated results unchanged. -/
theorem stepResults_neg (cf : Option Str) (res : List SearchResult)
    (ch : CMeta) (dist : ℚ) (hf : ¬ passesFilter cf ch.card_name = true) :
    stepResults cf res ch dist = res := by
  rw [stepResults, if_neg hf]

/-- Soundness of the collection loop: every returned result was already
accumulated or stems from some candidate pair, carrying that candidate's
distance, the relevance formula applied to it, the chunk Python indexing
finds for its label, and a passed filter test. -/
theorem searchLoop_ok_mem (chunks : List CMeta) (k : Nat) (cf : Option Str) :
    ∀ cands acc rs, searchLoop chunks k cf cands acc = .ok rs →
      ∀ r ∈ rs, r ∈ acc ∨
        ∃ idx dist, (idx, dist) ∈ cands ∧ pyGet chunks idx = some r.chunk ∧
          r.score = dist ∧ r.relevance = 1 / (1 + dist) ∧
          passesFilter cf r.chunk.card_name = true := by
  intro cands
  induction cands with
  | nil =>
    intro acc rs h r hr
    rw [searchLoop] at h
    obtain rfl := Except.ok.inj h
    exact Or.inl hr
  | cons cd rest ih =>
    intro acc rs h r hr
    obtain ⟨idx, dist⟩ := cd
    rw [searchLoop] at h
    split at h
    · split at h
      · exact absurd h (by simp)
      · rename_i ch hg
        by_cases hf : passesFilter cf ch.card_name = true
        · rw [stepResults_pos cf acc ch dist hf] at h
          split at h
          · obtain rfl := Except.ok.inj h
            rcases List.mem_append.mp hr with h1 | h1
            · exact Or.inl h1
            · obtain rfl := List.mem_singleton.mp h1
              exact Or.inr ⟨idx, dist, List.mem_cons_self _ _, hg, rfl, rfl, hf⟩
          · rcases ih _ _ h r hr with h1 | ⟨idx', dist', hm, hrest⟩
            · rcases List.mem_append.mp h1 with h2 | h2
              · exact Or.inl h2
              · obtain rfl := List.mem_singleton.mp h2
                exact Or.inr ⟨idx, dist, List.mem_cons_self _ _, hg, rfl, rfl, hf⟩
            · exact Or.inr ⟨idx', dist', List.mem_cons_of_mem _ hm, hrest⟩
        · rw [stepResults_neg cf acc ch dist hf] at h
          split at h
          · obtain rfl := Except.ok.inj h
            exact Or.inl hr
          · rcases ih _ _ h r hr with h1 | ⟨idx', dist', hm, hrest⟩
            · exact Or.inl h1
            · exact Or.inr ⟨idx', dist', List.mem_cons_of_mem _ hm, hrest⟩
    · rcases ih _ _ h r hr with h1 | ⟨idx', dist', hm, hrest⟩
      · exact Or.inl h1
      · exact Or.inr ⟨idx', dist', List.mem_cons_of_mem _ hm, hrest⟩

/-- The executable substring test agrees with list-infix containment. -/
theorem pyIn_iff (n : Str) : ∀ h : Str, pyIn n h = true ↔ n <:+: h := by
  intro h
  induction h with
  | nil => simp [pyIn, List.isPrefixOf_iff_prefix]
  | cons c t ih =>
    rw [pyIn]
    simp [List.isPrefixOf_iff_prefix, ih, List.infix_cons_iff]

/-- Claim C1: after `create_embeddings`, vectors and chunks are stored
position-aligned — the index holds one vector per chunk, the vector at
position `i` is the embedding of the text of the chunk at position `i` —
and every result `search` returns (within the stored count, no filter) is
the chunk looked up at the position the index returned, scored with that
position's exact distance. -/
theorem c1_alignment (embed : Str → Vec) (cards : List Card)
    (st0 st1 : RAGState) (hst : st1 = create_embeddings embed cards st0)
    (q : Str) (k : Nat) (hk : k ≤ st1.chunks.length) :
    ∃ vecs : List Vec, st1.index = some vecs ∧
      vecs.length = st1.chunks.length ∧
      (∀ (i : Nat) (ch : CMeta), st1.chunks[i]? = some ch →
        vecs[i]? = some (embed ch.text)) ∧
      ∀ rs, search embed st1 q k none = .ok rs → ∀ r ∈ rs,
        ∃ (i : Nat) (ch : CMeta), st1.chunks[i]? = some ch ∧ r.chunk = ch ∧
          r.score = l2sq (embed q) (embed ch.text) := by
  subst hst
  refine ⟨((cards.map Card.chunks).flatten.map CMeta.text).map embed, rfl,
    ?_, ?_, ?_⟩
  · show (((cards.map Card.chunks).flatten.map CMeta.text).map embed).length =
      ((cards.map Card.chunks).flatten).length
    rw [List.length_map, List.length_map]
  · intro i ch hich
    have hich2 : ((cards.map Card.chunks).flatten)[i]? = some ch := hich
    show (((cards.map Card.chunks).flatten.map CMeta.text).map embed)[i]? =
      some (embed ch.text)
    rw [List.getElem?_map, List.getElem?_map, hich2]
    rfl
  · intro rs hs r hr
    have hs2 : searchLoop ((cards.map Card.chunks).flatten) k none
        (faissSearch (((cards.map Card.chunks).flatten.map CMeta.text).map embed)
          (embed q) k) [] = .ok rs := hs
    rcases searchLoop_ok_mem _ _ _ _ _ _ hs2 r hr with
      h1 | ⟨idx, dist, hm, hget, hsc, -, -⟩
    · simp at h1
    · have hkv : k ≤ (((cards.map Card.chunks).flatten.map CMeta.text).map
          embed).length := by
        rw [List.length_map, List.length_map]
        exact hk
      rw [faissSearch_no_pad _ _ _ hkv] at hm
      obtain ⟨⟨i, d⟩, hmem, heq⟩ := List.mem_map.mp hm
      injection heq with h1 h2
      have hmem2 := (sortPairs_mem _ _).mp (List.take_subset _ _ hmem)
      obtain ⟨hlt, hd⟩ := distPairs_mem _ _ _ _ hmem2
      subst h1
      subst h2
      have hget2 : ((cards.map Card.chunks).flatten)[i]? = some r.chunk := by
        have hg3 : pyGet ((cards.map Card.chunks).flatten) (i : Int) =
            some r.chunk := hget
        unfold pyGet at hg3
        rw [if_pos (Int.natCast_nonneg i)] at hg3
        simpa using hg3
      refine ⟨i, r.chunk, ?_, rfl, ?_⟩
      · exact hget2
      · rw [hsc, hd]
        have hilen : i < (((cards.map Card.chunks).flatten.map CMeta.text).map
            embed).length := hlt
        have hopt : (((cards.map Card.chunks).flatten.map CMeta.text).map
            embed)[i]? = some (embed r.chunk.text) := by
          rw [List.getElem?_map, List.getElem?_map, hget2]
          rfl
        have hsome : (((cards.map Card.chunks).flatten.map CMeta.text).map
            embed)[i]? = some ((((cards.map Card.chunks).flatten.map
              CMeta.text).map embed)[i]) := List.getElem?_eq_getElem hilen
        have hval := Option.some.inj (hsome.symm.trans hopt)
        rw [List.getD_eq_getElem _ _ hilen, hval]

/-- Witness for C1 on a two-card batch with one chunk each. -/
theorem c1_alignment_witness :
    ∃ vecs, (create_embeddings exEmbed [⟨[mA]⟩, ⟨[mB]⟩] ⟨none, []⟩).index =
        some vecs ∧
      vecs.length =
        (create_embeddings exEmbed [⟨[mA]⟩, ⟨[mB]⟩] ⟨none, []⟩).chunks.length ∧
      (∀ (i : Nat) (ch : CMeta),
        (create_embeddings exEmbed [⟨[mA]⟩, ⟨[mB]⟩] ⟨none, []⟩).chunks[i]? =
          some ch → vecs[i]? = some (exEmbed ch.text)) ∧
      ∀ rs, search exEmbed (create_embeddings exEmbed [⟨[mA]⟩, ⟨[mB]⟩]
          ⟨none, []⟩) ("q").toList 1 none = .ok rs →
        ∀ r ∈ rs, ∃ (i : Nat) (ch : CMeta),
          (create_embeddings exEmbed [⟨[mA]⟩, ⟨[mB]⟩] ⟨none, []⟩).chunks[i]? =
            some ch ∧ r.chunk = ch ∧
          r.score = l2sq (exEmbed (("q").toList)) (exEmbed ch.text) :=
  c1_alignment exEmbed [⟨[mA]⟩, ⟨[mB]⟩] ⟨none, []⟩ _ rfl (("q").toList) 1
    (by decide)

/-- Claim C2: every result carries `relevance = 1 / (1 + score)` computed
from its nonnegative distance; that value lies in `(0, 1]`, equals `1`
exactly at distance `0`, and the mapping is strictly decreasing in the
distance. -/
theorem c2_relevance (embed : Str → Vec) (st : RAGState) (q : Str) (k : Nat)
    (cf : Option Str) (rs : List SearchResult)
    (h : search embed st q k cf = .ok rs) :
    (∀ r ∈ rs, 0 ≤ r.score ∧ r.relevance = 1 / (1 + r.score) ∧
      0 < r.relevance ∧ r.relevance ≤ 1 ∧ (r.relevance = 1 ↔ r.score = 0)) ∧
    ∀ d1 d2 : ℚ, 0 ≤ d1 → d1 < d2 → 1 / (1 + d2) < 1 / (1 + d1) := by
  constructor
  · intro r hr
    obtain ⟨oidx, chs⟩ := st
    have key : 0 ≤ r.score ∧ r.relevance = 1 / (1 + r.score) := by
      cases oidx with
      | none =>
        obtain rfl := Except.ok.inj h
        exact absurd hr (by simp)
      | some vecs =>
        have h2 : searchLoop chs k cf (faissSearch vecs (embed q)
            (fetchCount k cf)) [] = .ok rs := h
        rcases searchLoop_ok_mem _ _ _ _ _ _ h2 r hr with
          h1 | ⟨idx, dist, hm, -, hsc, hrel, -⟩
        · simp at h1
        · rcases faissSearch_mem _ _ _ _ _ hm with ⟨i, -, -, hd⟩ | ⟨-, hd⟩
          · constructor
            · rw [hsc, hd]
              exact l2sq_nonneg _ _
            · rw [hrel, hsc]
          · constructor
            · rw [hsc, hd]
              exact faissPad_nonneg
            · rw [hrel, hsc]
    obtain ⟨hge, hrel⟩ := key
    have hpos : (0 : ℚ) < 1 + r.score := by linarith
    refine ⟨hge, hrel, ?_, ?_, ?_⟩
    · rw [hrel]
      positivity
    · rw [hrel, div_le_one hpos]
      linarith
    · rw [hrel]
      constructor
      · intro h1
        have h3 := (div_eq_one_iff_eq (ne_of_gt hpos)).mp h1
        linarith
      · intro h1
        rw [h1]
        norm_num
  · intro d1 d2 h1 h2
    apply one_div_lt_one_div_of_lt <;> linarith

/-- Witness for C2 on a concrete one-result search. -/
theorem c2_relevance_witness :
    (∀ r ∈ [(⟨mA, 0, 1⟩ : SearchResult)], 0 ≤ r.score ∧
      r.relevance = 1 / (1 + r.score) ∧ 0 < r.relevance ∧ r.relevance ≤ 1 ∧
      (r.relevance = 1 ↔ r.score = 0)) ∧
    ∀ d1 d2 : ℚ, 0 ≤ d1 → d1 < d2 → 1 / (1 + d2) < 1 / (1 + d1) :=
  c2_relevance exEmbed stTwo [] 1 none [⟨mA, 0, 1⟩] (by
    norm_num [search, fetchCount, searchLoop, stepResults, faissSearch, distPairs,
      sortPairs, insertPair, l2sq, List.range_succ, stTwo, mA, mB, exEmbed,
      pyGet, passesFilter, List.replicate])

/-- Claim C3: with a non-`None` filter, every returned result's card name
contains the filter as a case-insensitive substring. -/
theorem c3_filter (embed : Str → Vec) (st : RAGState) (q : Str) (k : Nat)
    (f : Str) (rs : List SearchResult)
    (h : search embed st q k (some f) = .ok rs) :
    ∀ r ∈ rs, pyLower f <:+: pyLower r.chunk.card_name := by
  intro r hr
  obtain ⟨oidx, chs⟩ := st
  cases oidx with
  | none =>
    obtain rfl := Except.ok.inj h
    exact absurd hr (by simp)
  | some vecs =>
    have h2 : searchLoop chs k (some f) (faissSearch vecs (embed q)
        (if f = [] then k else k * 3)) [] = .ok rs := h
    rcases searchLoop_ok_mem _ _ _ _ _ _ h2 r hr with h1 | ⟨-, -, -, -, -, -, hf⟩
    · simp at h1
    · exact (pyIn_iff _ _).mp hf

/-- Witness for C3 with the mixed-case filter `"ARD"` on `stTwo`. -/
theorem c3_filter_witness :
    pyLower (("ARD").toList) <:+:
      pyLower ((⟨mA, 0, 1⟩ : SearchResult)).chunk.card_name :=
  c3_filter exEmbed stTwo [] 1 (("ARD").toList) [⟨mA, 0, 1⟩] (by
    norm_num +decide [search, fetchCount, searchLoop, stepResults, faissSearch, distPairs,
      sortPairs, insertPair, l2sq, List.range_succ, stTwo, mA, mB, exEmbed,
      pyGet, passesFilter, pyIn, pyLower, List.replicate])
    ⟨mA, 0, 1⟩ (List.mem_singleton.mpr rfl)

/-- Claim C7 (counterexample): `create_embeddings` on an empty batch is
not rejected — it succeeds, leaving an empty index and empty chunk list —
and the first subsequent search fails with an index error (the FAISS `-1`
padding indexes the empty chunk list). -/
theorem c7_counterexample :
    create_embeddings exEmbed [] ⟨none, []⟩ = ⟨some [], []⟩ ∧
    search exEmbed (create_embeddings exEmbed [] ⟨none, []⟩) [] 3 none =
      .error "IndexError" := by
  constructor
  · rfl
  · norm_num [search, fetchCount, create_embeddings, searchLoop, faissSearch, distPairs,
      sortPairs, pyGet, List.replicate]

/-- Claim C7 (amended): `create_embeddings` performs no emptiness check: a
batch with zero chunks builds an empty index without error, and every
subsequent unfiltered search with `k >= 1` on that state fails with an
index error rather than having been rejected at create time. -/
theorem c7_no_empty_check (embed : Str → Vec) (cards : List Card)
    (st : RAGState) (hzero : (cards.map Card.chunks).flatten = [])
    (q : Str) (k : Nat) (hk : 1 ≤ k) :
    create_embeddings embed cards st = ⟨some [], []⟩ ∧
    search embed (create_embeddings embed cards st) q k none =
      .error "IndexError" := by
  have hcr : create_embeddings embed cards st = ⟨some [], []⟩ := by
    simp [create_embeddings, hzero]
  refine ⟨hcr, ?_⟩
  rw [hcr]
  obtain ⟨j, rfl⟩ : ∃ j, k = j + 1 := ⟨k - 1, by omega⟩
  show searchLoop [] (j + 1) none (faissSearch [] (embed q) (j + 1)) [] =
    .error "IndexError"
  have hf : faissSearch [] (embed q) (j + 1) =
      (-1, faissPad) :: List.replicate j (-1, faissPad) := by
    unfold faissSearch
    simp [distPairs, sortPairs, List.replicate_succ]
  rw [hf]
  rfl

/-- Witness for C7 on the empty batch with `k = 2`. -/
theorem c7_no_empty_check_witness :
    (([] : List Card).map Card.chunks).flatten = [] ∧ 1 ≤ 2 ∧
    (create_embeddings exEmbed [] ⟨none, []⟩ = ⟨some [], []⟩ ∧
      search exEmbed (create_embeddings exEmbed [] ⟨none, []⟩) [] 2 none =
        .error "IndexError") :=
  ⟨rfl, by decide, c7_no_empty_check exEmbed [] ⟨none, []⟩ rfl [] 2 (by decide)⟩

/-- Claim C8 (code behavior at the failing input): on an index holding two
vectors and two chunks, an unfiltered search with `k = 5` does not return
just the two stored entries — FAISS pads the three missing slots with
label `-1`, the guard `idx < len(self.chunks)` accepts `-1`, and Python
indexing `chunks[-1]` yields the last chunk, so the result list contains
the last stored chunk four times. -/
theorem c8_bug_dup :
    (search exEmbed stTwo [] 5 none).map (fun rs => rs.map SearchResult.chunk) =
      .ok [mA, mB, mB, mB, mB] := by
  norm_num [search, fetchCount, searchLoop, stepResults, faissSearch, distPairs, sortPairs,
    insertPair, l2sq, List.range_succ, stTwo, mA, mB, exEmbed, pyGet,
    passesFilter, List.replicate, Except.map]

/-- Claim C10: if either persisted artifact is missing, `load_index`
reports failure and leaves the in-memory state exactly as it was. -/
theorem c10_load_missing (fs : FileSystem) (st : RAGState)
    (h : fs.index_file = none ∨ fs.chunks_file = none) :
    load_index fs st = (false, st) := by
  obtain ⟨fi, fc⟩ := fs
  cases fi with
  | none => cases fc <;> rfl
  | some v =>
    cases fc with
    | none => rfl
    | some c =>
      rcases h with h | h <;> exact absurd h (by simp)

/-- Witness for C10 with a missing index file. -/
theorem c10_load_missing_witness :
    ((⟨none, some [mA]⟩ : FileSystem).index_file = none ∨
      (⟨none, some [mA]⟩ : FileSystem).chunks_file = none) ∧
    load_index ⟨none, some [mA]⟩ stTwo = (false, stTwo) :=
  ⟨Or.inl rfl, c10_load_missing ⟨none, some [mA]⟩ stTwo (Or.inl rfl)⟩

end CardIQ
